import Mathlib

set_option maxHeartbeats 1000000

/-!
Verification development for the `axuspace` user-memory access subsystem.

The Rust sources are shallowly embedded as pure Lean functions:

* Virtual addresses and sizes are `Nat` (a `VirtAddr` wraps a `usize`).
* The external address-space validator (`trait UserSpaceAccess`) is a pair of
  pure functions from a range and permission flags to a `LinuxResult<()>`,
  modelled as `Except LinuxError Unit`.
* Every embedded operation returns, besides its `Result`, the list of
  observable events it performed in order: validator calls
  (`check_region_access` / `populate_region`), volatile element reads, and
  writes to the per-context `ACCESSING_USER_MEM` flag.  This event trace is
  what the safety and invariant claims quantify over.
* Loops with no structural bound in the source (`check_null_terminated`'s
  outer loop and `read_str_array`'s slot loop, which diverge when user memory
  never holds a terminator) take a fuel parameter; exhausting fuel yields
  `none`, marking a run that has not finished.  The page-validation inner
  `while` loop of the scan is intrinsically bounded (its page cursor strictly
  grows toward the element address), so its wrapper computes a sufficient
  bound itself and its behaviour does not depend on the fuel.
* User memory is a function from byte addresses to element values; typed
  reads of `T` at address `a` return `mem a`.  Writes produce an updated
  function.

`src/lib.rs` and the pair `src/uspace.rs` + `src/ptr.rs` are two coexisting
copies of the crate; they are embedded separately in namespaces `lib`,
`uspace` and `ptrmod`, mirroring their `use crate::...` dependencies
(`ptr.rs` calls the checkers of `uspace.rs`).
-/

/-- Error kinds used by the embedded code (`axerrno::LinuxError`). `EFAULT`
is "bad address", `EINVAL` "invalid argument", `EILSEQ` "illegal byte
sequence"; `ENOMEM` stands in for any further kind a validator may return. -/
inductive LinuxError where
  | EFAULT
  | EINVAL
  | EILSEQ
  | ENOMEM
deriving DecidableEq

/-- Permission flags (`page_table_multiarch::MappingFlags`), as the three
capability bits the subsystem mentions. -/
structure MappingFlags where
  read : Bool
  write : Bool
  execute : Bool
deriving DecidableEq

def MappingFlags.READ : MappingFlags := ⟨true, false, false⟩

def MappingFlags.WRITE : MappingFlags := ⟨false, true, false⟩

def MappingFlags.union (a b : MappingFlags) : MappingFlags :=
  ⟨a.read || b.read, a.write || b.write, a.execute || b.execute⟩

/-- `core::alloc::Layout`: a size and alignment in bytes. -/
structure Layout where
  size : Nat
  align : Nat
deriving DecidableEq

/-- `isize::MAX` on the 64-bit targets this crate is built for. -/
def isizeMax : Nat := 2 ^ 63 - 1

/-- `Layout::array::<T>(n)` for an element of layout `(size, align)`:
errors when the total byte size cannot be represented, i.e. when
`size != 0` and `size * n` exceeds `isize::MAX - (align - 1)`
(the `max_size_for_align` threshold used by `core::alloc`). -/
def Layout.array (size align n : Nat) : Option Layout :=
  if size ≠ 0 ∧ isizeMax - (align - 1) < size * n then none
  else some ⟨size * n, align⟩

/-- `memory_addr::PAGE_SIZE_4K`. -/
def PAGE_SIZE_4K : Nat := 4096

/-- `VirtAddr::align_down_4k`. -/
def alignDown4k (a : Nat) : Nat := a / PAGE_SIZE_4K * PAGE_SIZE_4K

/-- Observable events of a run: validator calls (with the range passed as
start and size, mirroring `VirtAddrRange::from_start_size`), volatile
element reads, and stores to the per-context access flag. -/
inductive Event where
  | checkAccess (start size : Nat) (flags : MappingFlags)
  | populate (start size : Nat) (flags : MappingFlags)
  | readElem (addr : Nat)
  | setFlag (b : Bool)
deriving DecidableEq

/-- The external address-space backend (`trait UserSpaceAccess`), as two pure
functions; both receive the range's start, the range's size, and the
requested permission. -/
structure UserSpaceAccess where
  check_region_access : Nat → Nat → MappingFlags → Except LinuxError Unit
  populate_region : Nat → Nat → MappingFlags → Except LinuxError Unit

/-- Projection of a trace to the validator `check_region_access` calls it
contains, each as (range start, range size, flags). -/
def checksOf (tr : List Event) : List (Nat × Nat × MappingFlags) :=
  tr.filterMap fun e =>
    match e with
    | .checkAccess s z f => some (s, z, f)
    | _ => none

/-- True for events of the user-access window (element reads and validator
calls), false for stores to the access flag itself. -/
def isAccessEvent (e : Event) : Bool :=
  match e with
  | .setFlag _ => false
  | _ => true

/-- True exactly for `populate_region` events. -/
def isPopulateEvent (e : Event) : Bool :=
  match e with
  | .populate _ _ _ => true
  | _ => false

/-- True exactly for volatile element-read events. -/
def isReadEvent (e : Event) : Bool :=
  match e with
  | .readElem _ => true
  | _ => false

/-- One step of the per-context access flag: a `setFlag` event overwrites the
flag, every other event leaves it unchanged. -/
def flagStep (b : Bool) (e : Event) : Bool :=
  match e with
  | .setFlag v => v
  | _ => b

/-- The access-flag value after a trace, starting from `false` (the flag is
initialized to false at context creation). -/
def flagAfter (tr : List Event) : Bool := tr.foldl flagStep false

namespace uspace

/-- `check_region` of `src/uspace.rs` (lines 49-64): reject a start address
misaligned for the layout with `EFAULT`, otherwise ask the validator to
check and then populate the byte range. -/
def check_region (usa : UserSpaceAccess) (start : Nat) (layout : Layout)
    (access_flags : MappingFlags) : Except LinuxError Unit × List Event :=
  if Nat.land start (layout.align - 1) ≠ 0 then (.error .EFAULT, [])
  else
    match usa.check_region_access start layout.size access_flags with
    | .error e => (.error e, [.checkAccess start layout.size access_flags])
    | .ok _ =>
      match usa.populate_region start layout.size access_flags with
      | .error e =>
          (.error e, [.checkAccess start layout.size access_flags,
                      .populate start layout.size access_flags])
      | .ok _ =>
          (.ok (), [.checkAccess start layout.size access_flags,
                    .populate start layout.size access_flags])

/-- The inner `while ptr as usize >= page` loop of `check_null_terminated`
(uspace.rs lines 86-92): validate one page at a time and advance the page
cursor until it passes the element address `ptr`.  The loop is bounded
because `page` strictly grows; the extra `Nat` argument is a structural
bound on the remaining iterations, supplied by the `validatePages` wrapper
below so that it never runs out. -/
def validatePagesAux (usa : UserSpaceAccess) (access_flags : MappingFlags) (ptr : Nat) :
    Nat → Nat → Except LinuxError Unit × Nat × List Event
  | 0, page => (.ok (), page, [])
  | bound + 1, page =>
    if page ≤ ptr then
      match usa.check_region_access page PAGE_SIZE_4K access_flags with
      | .error e => (.error e, page, [.checkAccess page PAGE_SIZE_4K access_flags])
      | .ok _ =>
        match validatePagesAux usa access_flags ptr bound (page + PAGE_SIZE_4K) with
        | (res, page2, tr) => (res, page2, .checkAccess page PAGE_SIZE_4K access_flags :: tr)
    else (.ok (), page, [])

/-- The inner page-validation loop with its sufficient iteration bound
(`page` grows by `PAGE_SIZE_4K ≥ 1` per iteration, so `ptr + 1 - page`
iterations always suffice). -/
def validatePages (usa : UserSpaceAccess) (access_flags : MappingFlags)
    (ptr page : Nat) : Except LinuxError Unit × Nat × List Event :=
  validatePagesAux usa access_flags ptr (ptr + 1 - page) page

/-- The outer `loop` of `check_null_terminated` (uspace.rs lines 84-98):
at element index `len` compute the element address, validate any pages the
address has reached, read the element, stop at the terminator
(`T::default()`), otherwise continue with `len + 1`.  `fuel` bounds the
number of elements inspected; `none` marks a run still going when it runs
out (the source loop diverges if user memory never holds a terminator). -/
def scanLoop {T : Type} [DecidableEq T] [Inhabited T] (usa : UserSpaceAccess)
    (access_flags : MappingFlags) (size : Nat) (mem : Nat → T) (start : Nat) :
    Nat → Nat → Nat → Option (Except LinuxError Nat) × List Event
  | _len, _page, 0 => (none, [])
  | len, page, fuel + 1 =>
    let ptr := start + len * size
    match validatePages usa access_flags ptr page with
    | (.error e, _, tr) => (some (.error e), tr)
    | (.ok _, page2, tr) =>
      if mem ptr = default then (some (.ok len), tr ++ [.readElem ptr])
      else
        match scanLoop usa access_flags size mem start (len + 1) page2 fuel with
        | (res, tr2) => (res, tr ++ .readElem ptr :: tr2)

/-- `access_user_memory` (uspace.rs lines 26-33): set the per-context flag to
true, run the body, set it back to false.  A run that does not finish
(`none`) never reaches the closing store. -/
def access_user_memory {α : Type} (r : Option (Except LinuxError α) × List Event) :
    Option (Except LinuxError α) × List Event :=
  (r.1, .setFlag true :: r.2 ++
    (match r.1 with
     | some _ => [.setFlag false]
     | none => []))

/-- `check_null_terminated` of `src/uspace.rs` (lines 67-101) for an element
type of layout `(size, align)` with decidable equality and a default value:
reject a misaligned start with `EFAULT`, otherwise run the page-by-page
scan inside the access-flag window, starting from element 0 and the page
containing `start`. -/
def check_null_terminated {T : Type} [DecidableEq T] [Inhabited T]
    (usa : UserSpaceAccess) (size align : Nat) (mem : Nat → T) (start : Nat)
    (access_flags : MappingFlags) (fuel : Nat) :
    Option (Except LinuxError Nat) × List Event :=
  if Nat.land start (align - 1) ≠ 0 then (some (.error .EFAULT), [])
  else access_user_memory (scanLoop usa access_flags size mem start 0 (alignDown4k start) fuel)

end uspace

/-- Outcome of Rust code that may panic: `.panic` for an aborted call (e.g.
`.unwrap()` on an `Err`), `.ret` for a normal return. -/
inductive ROutcome (α : Type) where
  | panic : ROutcome α
  | ret (a : α) : ROutcome α
deriving DecidableEq

namespace lib

/-- `check_region` of `src/lib.rs` (lines 46-61); textually the same logic as
`uspace.check_region`, embedded separately for the equivalence claim. -/
def check_region (usa : UserSpaceAccess) (start : Nat) (layout : Layout)
    (access_flags : MappingFlags) : Except LinuxError Unit × List Event :=
  if Nat.land start (layout.align - 1) ≠ 0 then (.error .EFAULT, [])
  else
    match usa.check_region_access start layout.size access_flags with
    | .error e => (.error e, [.checkAccess start layout.size access_flags])
    | .ok _ =>
      match usa.populate_region start layout.size access_flags with
      | .error e =>
          (.error e, [.checkAccess start layout.size access_flags,
                      .populate start layout.size access_flags])
      | .ok _ =>
          (.ok (), [.checkAccess start layout.size access_flags,
                    .populate start layout.size access_flags])

/-- Inner page-validation `while` loop of lib.rs `check_null_terminated`
(lines 84-90), with the same structural bound treatment as the uspace copy. -/
def validatePagesAux (usa : UserSpaceAccess) (access_flags : MappingFlags) (ptr : Nat) :
    Nat → Nat → Except LinuxError Unit × Nat × List Event
  | 0, page => (.ok (), page, [])
  | bound + 1, page =>
    if page ≤ ptr then
      match usa.check_region_access page PAGE_SIZE_4K access_flags with
      | .error e => (.error e, page, [.checkAccess page PAGE_SIZE_4K access_flags])
      | .ok _ =>
        match validatePagesAux usa access_flags ptr bound (page + PAGE_SIZE_4K) with
        | (res, page2, tr) => (res, page2, .checkAccess page PAGE_SIZE_4K access_flags :: tr)
    else (.ok (), page, [])

/-- lib.rs inner page loop with its sufficient iteration bound. -/
def validatePages (usa : UserSpaceAccess) (access_flags : MappingFlags)
    (ptr page : Nat) : Except LinuxError Unit × Nat × List Event :=
  validatePagesAux usa access_flags ptr (ptr + 1 - page) page

/-- Outer loop of lib.rs `check_null_terminated` (lines 80-98). -/
def scanLoop {T : Type} [DecidableEq T] [Inhabited T] (usa : UserSpaceAccess)
    (access_flags : MappingFlags) (size : Nat) (mem : Nat → T) (start : Nat) :
    Nat → Nat → Nat → Option (Except LinuxError Nat) × List Event
  | _len, _page, 0 => (none, [])
  | len, page, fuel + 1 =>
    let ptr := start + len * size
    match validatePages usa access_flags ptr page with
    | (.error e, _, tr) => (some (.error e), tr)
    | (.ok _, page2, tr) =>
      if mem ptr = default then (some (.ok len), tr ++ [.readElem ptr])
      else
        match scanLoop usa access_flags size mem start (len + 1) page2 fuel with
        | (res, tr2) => (res, tr ++ .readElem ptr :: tr2)

/-- `access_user_memory` of lib.rs (lines 21-28): the plain per-cpu bool is
set true around the body and reset afterwards; sequentially identical to the
atomic store version of uspace.rs. -/
def access_user_memory {α : Type} (r : Option (Except LinuxError α) × List Event) :
    Option (Except LinuxError α) × List Event :=
  (r.1, .setFlag true :: r.2 ++
    (match r.1 with
     | some _ => [.setFlag false]
     | none => []))

/-- `check_null_terminated` of `src/lib.rs` (lines 63-101). -/
def check_null_terminated {T : Type} [DecidableEq T] [Inhabited T]
    (usa : UserSpaceAccess) (size align : Nat) (mem : Nat → T) (start : Nat)
    (access_flags : MappingFlags) (fuel : Nat) :
    Option (Except LinuxError Nat) × List Event :=
  if Nat.land start (align - 1) ≠ 0 then (some (.error .EFAULT), [])
  else access_user_memory (scanLoop usa access_flags size mem start 0 (alignDown4k start) fuel)

/-- `UserPtr::ACCESS_FLAGS` (lib.rs line 126): READ | WRITE. -/
def UserPtr.ACCESS_FLAGS : MappingFlags := MappingFlags.READ.union MappingFlags.WRITE

/-- `UserConstPtr::ACCESS_FLAGS` (lib.rs line 198): READ. -/
def UserConstPtr.ACCESS_FLAGS : MappingFlags := MappingFlags.READ

/-- `UserPtr::get_as_mut_slice` of lib.rs (lines 149-161): the layout is
`Layout::array::<T>(len).unwrap()`, so a length whose total byte size cannot
be represented aborts the call (panics) before any validation runs. -/
def UserPtr.get_as_mut_slice {T : Type} (usa : UserSpaceAccess) (size align : Nat)
    (mem : Nat → T) (addr len : Nat) :
    ROutcome (Except LinuxError (List T) × List Event) :=
  match Layout.array size align len with
  | none => .panic
  | some layout =>
    match check_region usa addr layout UserPtr.ACCESS_FLAGS with
    | (.error e, tr) => .ret (.error e, tr)
    | (.ok _, tr) => .ret (.ok ((List.range len).map fun i => mem (addr + i * size)), tr)

/-- `UserConstPtr::get_as_slice` of lib.rs (lines 221-233): same
`.unwrap()` on the array layout, with READ permission. -/
def UserConstPtr.get_as_slice {T : Type} (usa : UserSpaceAccess) (size align : Nat)
    (mem : Nat → T) (addr len : Nat) :
    ROutcome (Except LinuxError (List T) × List Event) :=
  match Layout.array size align len with
  | none => .panic
  | some layout =>
    match check_region usa addr layout UserConstPtr.ACCESS_FLAGS with
    | (.error e, tr) => .ret (.error e, tr)
    | (.ok _, tr) => .ret (.ok ((List.range len).map fun i => mem (addr + i * size)), tr)

/-- The `nullable!` macro of lib.rs (lines 255-264): a null pointer yields
`Ok(None)` without running the accessor at all; otherwise the accessor runs
and its result is wrapped via `Some(...).transpose()`. -/
def nullable {α : Type} (addr : Nat)
    (func : Nat → Except LinuxError α × List Event) :
    Except LinuxError (Option α) × List Event :=
  if addr = 0 then (.ok none, [])
  else
    match func addr with
    | (.ok v, tr) => (.ok (some v), tr)
    | (.error e, tr) => (.error e, tr)

end lib

/-- Whether `b` is a UTF-8 continuation byte (`0x80..=0xBF`). -/
def utf8Cont (b : Nat) : Bool := 0x80 ≤ b && b ≤ 0xBF

/-- UTF-8 validity of a byte sequence, with the shortest-form, surrogate and
code-point-bound restrictions enforced by `core::str::from_utf8`. -/
def utf8Valid : List Nat → Bool
  | [] => true
  | b :: rest =>
    if b ≤ 0x7F then utf8Valid rest
    else if b < 0xC2 then false
    else if b ≤ 0xDF then
      match rest with
      | c1 :: r => utf8Cont c1 && utf8Valid r
      | [] => false
    else if b ≤ 0xEF then
      match rest with
      | c1 :: c2 :: r =>
        (if b = 0xE0 then 0xA0 ≤ c1 && c1 ≤ 0xBF
         else if b = 0xED then 0x80 ≤ c1 && c1 ≤ 0x9F
         else utf8Cont c1) && utf8Cont c2 && utf8Valid r
      | _ => false
    else if b ≤ 0xF4 then
      match rest with
      | c1 :: c2 :: c3 :: r =>
        (if b = 0xF0 then 0x90 ≤ c1 && c1 ≤ 0xBF
         else if b = 0xF4 then 0x80 ≤ c1 && c1 ≤ 0x8F
         else utf8Cont c1) && utf8Cont c2 && utf8Cont c3 && utf8Valid r
      | _ => false
    else false

namespace ptrmod

/-- `offset` (ptr.rs lines 29-31): advance the pointer by `n` elements of the
current type; no validation happens here. -/
def offset (size addr n : Nat) : Nat := addr + n * size

/-- `get_as_ref` of the `UserReadable` impl (ptr.rs lines 36-44): region-check
one element of layout `(size, align)` with READ permission, then dereference. -/
def get_as_ref {T : Type} (usa : UserSpaceAccess) (size align : Nat)
    (mem : Nat → T) (addr : Nat) : Except LinuxError T × List Event :=
  match uspace.check_region usa addr ⟨size, align⟩ MappingFlags.READ with
  | (.error e, tr) => (.error e, tr)
  | (.ok _, tr) => (.ok (mem addr), tr)

/-- `get_as_slice` (ptr.rs lines 47-59): a `Layout::array` failure is mapped
to `EINVAL` before any validation; otherwise region-check the whole range
with READ and produce the slice contents. -/
def get_as_slice {T : Type} (usa : UserSpaceAccess) (size align : Nat)
    (mem : Nat → T) (addr len : Nat) : Except LinuxError (List T) × List Event :=
  match Layout.array size align len with
  | none => (.error .EINVAL, [])
  | some layout =>
    match uspace.check_region usa addr layout MappingFlags.READ with
    | (.error e, tr) => (.error e, tr)
    | (.ok _, tr) => (.ok ((List.range len).map fun i => mem (addr + i * size)), tr)

/-- `UserPtr::get_as_mut_slice` (ptr.rs lines 139-151): as `get_as_slice`
but requesting READ|WRITE. -/
def get_as_mut_slice {T : Type} (usa : UserSpaceAccess) (size align : Nat)
    (mem : Nat → T) (addr len : Nat) : Except LinuxError (List T) × List Event :=
  match Layout.array size align len with
  | none => (.error .EINVAL, [])
  | some layout =>
    match uspace.check_region usa addr layout (MappingFlags.READ.union MappingFlags.WRITE) with
    | (.error e, tr) => (.error e, tr)
    | (.ok _, tr) => (.ok ((List.range len).map fun i => mem (addr + i * size)), tr)

/-- `get_as_null_terminated` (ptr.rs lines 62-72): find the length via
`check_null_terminated` with READ permission, then produce that many
elements. -/
def get_as_null_terminated {T : Type} [DecidableEq T] [Inhabited T]
    (usa : UserSpaceAccess) (size align : Nat) (mem : Nat → T) (addr fuel : Nat) :
    Option (Except LinuxError (List T)) × List Event :=
  match uspace.check_null_terminated usa size align mem addr MappingFlags.READ fuel with
  | (none, tr) => (none, tr)
  | (some (.error e), tr) => (some (.error e), tr)
  | (some (.ok len), tr) => (some (.ok ((List.range len).map fun i => mem (addr + i * size))), tr)

/-- `get_as_str` (ptr.rs lines 76-83): read the null-terminated `c_char`
sequence (layout `(1, 1)`) and validate it as UTF-8; invalid text fails with
`EILSEQ`.  The resulting `&str` is represented by its byte sequence. -/
def get_as_str (usa : UserSpaceAccess) (mem : Nat → Nat) (addr fuel : Nat) :
    Option (Except LinuxError (List Nat)) × List Event :=
  match get_as_null_terminated usa 1 1 mem addr fuel with
  | (some (.ok bs), tr) => (some (if utf8Valid bs then .ok bs else .error .EILSEQ), tr)
  | (some (.error e), tr) => (some (.error e), tr)
  | (none, tr) => (none, tr)

end ptrmod

namespace uspace

/-- `UserSpace::read` (uspace.rs lines 115-121): `get_as_ref` through the
`UserReadable` impl of ptr.rs, then copy the value out. -/
def UserSpace.read {T : Type} (usa : UserSpaceAccess) (size align : Nat)
    (mem : Nat → T) (addr : Nat) : Except LinuxError T × List Event :=
  ptrmod.get_as_ref usa size align mem addr

/-- `UserSpace::read_str` (uspace.rs lines 124-126): delegate to the
`c_char` string accessor. -/
def UserSpace.read_str (usa : UserSpaceAccess) (mem : Nat → Nat) (addr fuel : Nat) :
    Option (Except LinuxError (List Nat)) × List Event :=
  ptrmod.get_as_str usa mem addr fuel

/-- `UserSpace::write` (uspace.rs lines 162-167): `get_as_mut` region-checks
one element of layout `(size, align)` with READ|WRITE (ptr.rs lines
128-136), and the obtained mutable reference is assigned `val`; the updated
user memory is returned alongside the result. -/
def UserSpace.write {T : Type} (usa : UserSpaceAccess) (size align : Nat)
    (mem : Nat → T) (addr : Nat) (val : T) :
    Except LinuxError Unit × (Nat → T) × List Event :=
  match check_region usa addr ⟨size, align⟩ (MappingFlags.READ.union MappingFlags.WRITE) with
  | (.error e, tr) => (.error e, mem, tr)
  | (.ok _, tr) => (.ok (), (fun a => if a = addr then val else mem a), tr)

/-- `UserSpace::read_str_array` (uspace.rs lines 182-199): read pointer-sized
slots (layout `(8, 8)` on the 64-bit targets) at `ptr.offset(offset)`, stop
at a null slot, otherwise read the pointed-to string and accumulate it; any
error propagates immediately.  `memPtr` gives the pointer value stored at a
slot address and `memByte` the bytes of the pointed-to strings; `strFuel`
bounds each string scan and `fuel` the number of slots inspected. -/
def UserSpace.read_str_array (usa : UserSpaceAccess) (memPtr : Nat → Nat)
    (memByte : Nat → Nat) (addr strFuel : Nat) :
    Nat → Nat → Option (Except LinuxError (List (List Nat))) × List Event
  | _offset, 0 => (none, [])
  | offset, fuel + 1 =>
    match UserSpace.read usa 8 8 memPtr (ptrmod.offset 8 addr offset) with
    | (.error e, tr) => (some (.error e), tr)
    | (.ok str_ptr, tr) =>
      if str_ptr = 0 then (some (.ok []), tr)
      else
        match UserSpace.read_str usa memByte str_ptr strFuel with
        | (none, tr2) => (none, tr ++ tr2)
        | (some (.error e), tr2) => (some (.error e), tr ++ tr2)
        | (some (.ok s), tr2) =>
          match UserSpace.read_str_array usa memPtr memByte addr strFuel (offset + 1) fuel with
          | (none, tr3) => (none, tr ++ tr2 ++ tr3)
          | (some (.error e), tr3) => (some (.error e), tr ++ tr2 ++ tr3)
          | (some (.ok rest), tr3) => (some (.ok (s :: rest)), tr ++ tr2 ++ tr3)

/-- The `nullable!` macro of uspace.rs (lines 203-212): a null pointer yields
`Ok(None)` without calling the facade method at all; otherwise the method
runs and its result is wrapped with `.map(Some)`. -/
def nullable {α : Type} (addr : Nat)
    (method : Nat → Except LinuxError α × List Event) :
    Except LinuxError (Option α) × List Event :=
  if addr = 0 then (.ok none, [])
  else
    match method addr with
    | (res, tr) => (res.map some, tr)

end uspace

/-- The list of 4K pages `a, a + 4096, ...` of length `n`. -/
def pageList (a n : Nat) : List Nat :=
  (List.range n).map fun i => a + PAGE_SIZE_4K * i

/-- All 4K-aligned page addresses `q` with `a ≤ q ≤ b` (for `a` itself
4K-aligned); empty when `b < a`. -/
def pagesBetween (a b : Nat) : List Nat :=
  if a ≤ b then pageList a ((b - a) / PAGE_SIZE_4K + 1) else []

/-- The 4K pages holding part of one element that starts at byte address `a`
and occupies `s` bytes (a zero-sized element still lies at its address, in
one page). -/
def elemPages (a s : Nat) : List Nat :=
  pagesBetween (alignDown4k a) (a + max s 1 - 1)

/-- The distinct 4K pages spanned by elements `0..=k` of size `size`
starting at `start` — the "p distinct pages" of the scan claims. -/
def spannedPages (start size k : Nat) : List Nat :=
  (((List.range (k + 1)).flatMap fun i => elemPages (start + i * size) size)).dedup

/-- Trace property of claim C2 (in its amended form): every volatile element
read is preceded in the trace by a successful `check_region_access` call for
the one 4K page holding the element's address, with the requested
permission. -/
def Covered (usa : UserSpaceAccess) (fl : MappingFlags) (l : List Event) : Prop :=
  ∀ (i a : Nat), l[i]? = some (Event.readElem a) →
    ∃ j : Nat, j < i ∧ l[j]? = some (Event.checkAccess (alignDown4k a) PAGE_SIZE_4K fl) ∧
      usa.check_region_access (alignDown4k a) PAGE_SIZE_4K fl = .ok ()

/-- A validator that accepts every request, used as a concrete backend in
witness runs. -/
def usaOk : UserSpaceAccess :=
  ⟨fun _ _ _ => .ok (), fun _ _ _ => .ok ()⟩

/-- A validator that rejects every request with `EFAULT`. -/
def usaFault : UserSpaceAccess :=
  ⟨fun _ _ _ => .error .EFAULT, fun _ _ _ => .error .EFAULT⟩

/-- C4 (amended): for every start address failing the alignment test of the
layout and every permission value, `check_region` (both copies) and
`check_null_terminated` (both copies, for an element type of the same
alignment) fail with `EFAULT` — the same error code the fault path uses,
not a distinct "invalid address" kind — and the validator is never invoked
(the event trace is empty). -/
theorem c4_misaligned_efault_no_validator
    (usa : UserSpaceAccess) (start : Nat) (layout : Layout) (fl : MappingFlags)
    {T : Type} [DecidableEq T] [Inhabited T] (size : Nat) (mem : Nat → T) (fuel : Nat)
    (h : Nat.land start (layout.align - 1) ≠ 0) :
    uspace.check_region usa start layout fl = (.error .EFAULT, []) ∧
    lib.check_region usa start layout fl = (.error .EFAULT, []) ∧
    uspace.check_null_terminated usa size layout.align mem start fl fuel
      = (some (.error .EFAULT), []) ∧
    lib.check_null_terminated usa size layout.align mem start fl fuel
      = (some (.error .EFAULT), []) := by
  refine ⟨?_, ?_, ?_, ?_⟩ <;>
    simp [uspace.check_region, lib.check_region,
      uspace.check_null_terminated, lib.check_null_terminated, h]

/-- C4 counterexample: at the concrete misaligned address 1 (alignment 4) the
region check fails with `EFAULT` — exactly the error kind a validator fault
produces (second conjunct) — so the misalignment failure is not a distinct
"invalid address" error kind. -/
theorem c4_counterexample :
    uspace.check_region usaOk 1 ⟨4, 4⟩ MappingFlags.READ = (.error .EFAULT, []) ∧
    uspace.check_region usaFault 0 ⟨4, 4⟩ MappingFlags.READ
      = (.error .EFAULT, [Event.checkAccess 0 4 MappingFlags.READ]) := by
  constructor <;> rfl

/-- Witness for C4's amended theorem at the concrete misaligned address 2
with alignment 8. -/
theorem c4_witness :
    uspace.check_region usaOk 2 ⟨8, 8⟩ MappingFlags.WRITE = (.error .EFAULT, []) ∧
    lib.check_region usaOk 2 ⟨8, 8⟩ MappingFlags.WRITE = (.error .EFAULT, []) ∧
    uspace.check_null_terminated usaOk 8 8 (fun _ => (0 : Nat)) 2 MappingFlags.WRITE 5
      = (some (.error .EFAULT), []) ∧
    lib.check_null_terminated usaOk 8 8 (fun _ => (0 : Nat)) 2 MappingFlags.WRITE 5
      = (some (.error .EFAULT), []) :=
  c4_misaligned_efault_no_validator usaOk 2 ⟨8, 8⟩ MappingFlags.WRITE 8
    (fun _ => (0 : Nat)) 5 (by decide)

/-- C7 (amended): when the total byte size of a requested slice cannot be
represented (`Layout::array` fails, i.e. `size ≠ 0` and `size * len`
exceeds the representable maximum), the ptr.rs accessors `get_as_slice` and
`get_as_mut_slice` return the invalid-size error `EINVAL` without invoking
the validator (empty trace), while the lib.rs copies `.unwrap()` the layout
error and panic instead of returning it. -/
theorem c7_slice_layout_overflow {T : Type} (usa : UserSpaceAccess)
    (size align : Nat) (mem : Nat → T) (addr len : Nat)
    (h : size ≠ 0 ∧ isizeMax - (align - 1) < size * len) :
    ptrmod.get_as_slice usa size align mem addr len = (.error .EINVAL, []) ∧
    ptrmod.get_as_mut_slice usa size align mem addr len = (.error .EINVAL, []) ∧
    lib.UserPtr.get_as_mut_slice usa size align mem addr len = .panic ∧
    lib.UserConstPtr.get_as_slice usa size align mem addr len = .panic := by
  simp only [ptrmod.get_as_slice, ptrmod.get_as_mut_slice,
    lib.UserPtr.get_as_mut_slice, lib.UserConstPtr.get_as_slice,
    Layout.array, if_pos h]
  exact ⟨trivial, trivial, trivial, trivial⟩

/-- C7 counterexample: for element layout `(8, 8)` and length `2^61` the
total byte size overflows, and the lib.rs `get_as_mut_slice` /
`get_as_slice` panic (`.unwrap()` of the layout error) instead of returning
the invalid-size error. -/
theorem c7_counterexample :
    lib.UserPtr.get_as_mut_slice usaOk 8 8 (fun _ => (0 : Nat)) 0 (2 ^ 61) = .panic ∧
    lib.UserConstPtr.get_as_slice usaOk 8 8 (fun _ => (0 : Nat)) 0 (2 ^ 61) = .panic := by
  constructor <;> rfl

/-- Witness for C7's amended theorem at element layout `(8, 8)`, length
`2^61`. -/
theorem c7_witness :
    ptrmod.get_as_slice usaOk 8 8 (fun _ => (0 : Nat)) 0 (2 ^ 61) = (.error .EINVAL, []) ∧
    ptrmod.get_as_mut_slice usaOk 8 8 (fun _ => (0 : Nat)) 0 (2 ^ 61) = (.error .EINVAL, []) ∧
    lib.UserPtr.get_as_mut_slice usaOk 8 8 (fun _ => (0 : Nat)) 0 (2 ^ 61) = .panic ∧
    lib.UserConstPtr.get_as_slice usaOk 8 8 (fun _ => (0 : Nat)) 0 (2 ^ 61) = .panic :=
  c7_slice_layout_overflow usaOk 8 8 (fun _ => (0 : Nat)) 0 (2 ^ 61) (by decide)

/-- C8: for every accessor and the null pointer, both `nullable!` macros
yield `Ok(None)` with an empty event trace — no `check_region_access` or
`populate_region` call happens; for every non-null pointer they run the
chosen accessor and wrap its result (`Except.map some`), trace unchanged. -/
theorem c8_nullable_spec {α : Type} (func : Nat → Except LinuxError α × List Event) :
    (lib.nullable 0 func = (.ok none, []) ∧ uspace.nullable 0 func = (.ok none, [])) ∧
    ∀ addr : Nat, addr ≠ 0 →
      lib.nullable addr func = ((func addr).1.map some, (func addr).2) ∧
      uspace.nullable addr func = ((func addr).1.map some, (func addr).2) := by
  constructor
  · exact ⟨rfl, rfl⟩
  · intro addr h
    constructor
    · unfold lib.nullable
      rw [if_neg h]
      rcases hf : func addr with ⟨res, tr⟩
      cases res <;> simp [Except.map]
    · unfold uspace.nullable
      rw [if_neg h]

/-- Witness for C8 with the concrete accessor `get_as_ref` over an
all-accepting validator, at the null pointer and at address 8. -/
theorem c8_witness :
    (lib.nullable 0 (fun a => ptrmod.get_as_ref usaOk 8 8 (fun _ => (7 : Nat)) a)
        = (.ok none, []) ∧
     uspace.nullable 0 (fun a => ptrmod.get_as_ref usaOk 8 8 (fun _ => (7 : Nat)) a)
        = (.ok none, [])) ∧
    (lib.nullable 8 (fun a => ptrmod.get_as_ref usaOk 8 8 (fun _ => (7 : Nat)) a)
        = (((ptrmod.get_as_ref usaOk 8 8 (fun _ => (7 : Nat)) 8).1.map some),
           (ptrmod.get_as_ref usaOk 8 8 (fun _ => (7 : Nat)) 8).2) ∧
     uspace.nullable 8 (fun a => ptrmod.get_as_ref usaOk 8 8 (fun _ => (7 : Nat)) a)
        = (((ptrmod.get_as_ref usaOk 8 8 (fun _ => (7 : Nat)) 8).1.map some),
           (ptrmod.get_as_ref usaOk 8 8 (fun _ => (7 : Nat)) 8).2)) :=
  ⟨(c8_nullable_spec _).1, (c8_nullable_spec _).2 8 (by decide)⟩

/-- C9: for every value, every address passing the element's alignment test,
and every validator that accepts the element's byte range for READ|WRITE
and for READ, `UserSpace::write` succeeds and a subsequent
`UserSpace::read` of the read-only pointer to the same address returns
exactly the written value. -/
theorem c9_write_read_roundtrip {T : Type} (usa : UserSpaceAccess)
    (size align : Nat) (mem : Nat → T) (addr : Nat) (val : T)
    (halign : Nat.land addr (align - 1) = 0)
    (hcw : usa.check_region_access addr size (MappingFlags.READ.union MappingFlags.WRITE) = .ok ())
    (hpw : usa.populate_region addr size (MappingFlags.READ.union MappingFlags.WRITE) = .ok ())
    (hcr : usa.check_region_access addr size MappingFlags.READ = .ok ())
    (hpr : usa.populate_region addr size MappingFlags.READ = .ok ()) :
    (uspace.UserSpace.write usa size align mem addr val).1 = .ok () ∧
    (uspace.UserSpace.read usa size align
        (uspace.UserSpace.write usa size align mem addr val).2.1 addr).1 = .ok val := by
  unfold uspace.UserSpace.write uspace.UserSpace.read ptrmod.get_as_ref uspace.check_region
  simp [halign, hcw, hpw, hcr, hpr]

/-- Witness for C9: writing 42 at address 16 (layout `(8, 8)`) over the
all-accepting validator and reading it back. -/
theorem c9_witness :
    (uspace.UserSpace.write usaOk 8 8 (fun _ => (0 : Nat)) 16 42).1 = .ok () ∧
    (uspace.UserSpace.read usaOk 8 8
        (uspace.UserSpace.write usaOk 8 8 (fun _ => (0 : Nat)) 16 42).2.1 16).1 = .ok 42 :=
  c9_write_read_roundtrip usaOk 8 8 (fun _ => (0 : Nat)) 16 42 (by decide) rfl rfl rfl rfl

/-- The two copies of the inner page-validation loop agree on every input. -/
theorem validatePagesAux_eq (usa : UserSpaceAccess) (fl : MappingFlags) (ptr : Nat)
    (bound page : Nat) :
    lib.validatePagesAux usa fl ptr bound page = uspace.validatePagesAux usa fl ptr bound page := by
  induction bound generalizing page with
  | zero => rfl
  | succ b ih =>
    simp only [lib.validatePagesAux, uspace.validatePagesAux, ih]

/-- The two copies of the bounded inner page loop wrapper agree. -/
theorem validatePages_eq (usa : UserSpaceAccess) (fl : MappingFlags) (ptr page : Nat) :
    lib.validatePages usa fl ptr page = uspace.validatePages usa fl ptr page := by
  unfold lib.validatePages uspace.validatePages
  rw [validatePagesAux_eq]

/-- The two copies of the scan loop agree on every input. -/
theorem scanLoop_eq {T : Type} [DecidableEq T] [Inhabited T] (usa : UserSpaceAccess)
    (fl : MappingFlags) (size : Nat) (mem : Nat → T) (start : Nat)
    (len page fuel : Nat) :
    lib.scanLoop usa fl size mem start len page fuel
      = uspace.scanLoop usa fl size mem start len page fuel := by
  induction fuel generalizing len page with
  | zero => rfl
  | succ f ih =>
    simp only [lib.scanLoop, uspace.scanLoop, validatePages_eq, ih]

/-- C10: the duplicated `check_region` and `check_null_terminated` of
src/lib.rs and src/uspace.rs are extensionally equal: on every validator,
start address, layout (or element layout), permission set, user-memory
contents and fuel, the two copies return the same result and emit the same
event trace — in particular the same sequence of validator calls. -/
theorem c10_duplicates_extensionally_equal :
    (∀ (usa : UserSpaceAccess) (start : Nat) (layout : Layout) (fl : MappingFlags),
      lib.check_region usa start layout fl = uspace.check_region usa start layout fl) ∧
    (∀ (T : Type) (i1 : DecidableEq T) (i2 : Inhabited T) (usa : UserSpaceAccess)
        (size align : Nat) (mem : Nat → T) (start : Nat) (fl : MappingFlags) (fuel : Nat),
      @lib.check_null_terminated T i1 i2 usa size align mem start fl fuel
        = @uspace.check_null_terminated T i1 i2 usa size align mem start fl fuel) := by
  constructor
  · intro usa start layout fl
    rfl
  · intro T i1 i2 usa size align mem start fl fuel
    unfold lib.check_null_terminated uspace.check_null_terminated
    rw [scanLoop_eq]
    rfl

theorem alignDown4k_mod (a : Nat) : alignDown4k a % PAGE_SIZE_4K = 0 := by
  simp only [alignDown4k, PAGE_SIZE_4K]
  omega

theorem alignDown4k_le (a : Nat) : alignDown4k a ≤ a := by
  simp only [alignDown4k, PAGE_SIZE_4K]
  omega

theorem alignDown4k_mono {a b : Nat} (h : a ≤ b) : alignDown4k a ≤ alignDown4k b := by
  simp only [alignDown4k, PAGE_SIZE_4K] at *
  omega

theorem pageList_cons (a n : Nat) :
    pageList a (n + 1) = a :: pageList (a + PAGE_SIZE_4K) n := by
  simp only [pageList, List.range_succ_eq_map, List.map_cons, List.map_map, Nat.mul_zero,
    Nat.add_zero]
  congr 1
  apply List.map_congr_left
  intro i _
  simp only [Function.comp_apply, PAGE_SIZE_4K]
  omega

theorem mem_pageList {q a n : Nat} :
    q ∈ pageList a n ↔ ∃ i, i < n ∧ q = a + PAGE_SIZE_4K * i := by
  simp only [pageList, List.mem_map, List.mem_range]
  constructor
  · rintro ⟨i, hi, rfl⟩
    exact ⟨i, hi, rfl⟩
  · rintro ⟨i, hi, rfl⟩
    exact ⟨i, hi, rfl⟩

theorem mem_pagesBetween {a b q : Nat} (ha : a % PAGE_SIZE_4K = 0) :
    q ∈ pagesBetween a b ↔ q % PAGE_SIZE_4K = 0 ∧ a ≤ q ∧ q ≤ b := by
  simp only [pagesBetween]
  by_cases hab : a ≤ b
  · rw [if_pos hab, mem_pageList]
    constructor
    · rintro ⟨i, hi, rfl⟩
      simp only [PAGE_SIZE_4K] at *
      omega
    · rintro ⟨hq, haq, hqb⟩
      refine ⟨(q - a) / PAGE_SIZE_4K, ?_, ?_⟩ <;>
        (simp only [PAGE_SIZE_4K] at *; omega)
  · rw [if_neg hab]
    simp only [List.not_mem_nil, false_iff]
    rintro ⟨_, haq, hqb⟩
    exact hab (le_trans haq hqb)

theorem pagesBetween_cons {a b : Nat} (ha : a % PAGE_SIZE_4K = 0) (h : a ≤ b) :
    pagesBetween a b = a :: pagesBetween (a + PAGE_SIZE_4K) b := by
  simp only [pagesBetween, if_pos h]
  by_cases h2 : a + PAGE_SIZE_4K ≤ b
  · rw [if_pos h2]
    have hc : (b - a) / PAGE_SIZE_4K + 1 = ((b - (a + PAGE_SIZE_4K)) / PAGE_SIZE_4K + 1) + 1 := by
      simp only [PAGE_SIZE_4K] at *
      omega
    rw [hc, pageList_cons]
  · rw [if_neg h2]
    have hc : (b - a) / PAGE_SIZE_4K + 1 = 1 := by
      simp only [PAGE_SIZE_4K] at *
      omega
    rw [hc]
    simp [pageList, List.range_succ]

theorem pagesBetween_nodup (a b : Nat) : (pagesBetween a b).Nodup := by
  simp only [pagesBetween]
  by_cases hab : a ≤ b
  · rw [if_pos hab]
    apply List.Nodup.map
    · intro x y hxy
      simp only [PAGE_SIZE_4K] at hxy
      omega
    · exact List.nodup_range _
  · rw [if_neg hab]
    exact List.nodup_nil

theorem pagesBetween_split {a p K : Nat} (hn : p - a ≤ n) (ha : a % PAGE_SIZE_4K = 0)
    (h1 : a ≤ p) (h2 : p ≤ K) :
    pagesBetween a K = pagesBetween a p ++ pagesBetween (alignDown4k p + PAGE_SIZE_4K) K := by
  induction n generalizing a with
  | zero =>
    have hpa : p = a := by omega
    subst hpa
    have had : alignDown4k p = p := by
      simp only [alignDown4k, PAGE_SIZE_4K] at *
      omega
    rw [had, pagesBetween_cons ha h2]
    have hsing : pagesBetween p p = [p] := by
      simp only [pagesBetween, if_pos (le_refl p), Nat.sub_self]
      simp [pageList, List.range_succ]
    rw [hsing]
    rfl
  | succ n ih =>
    by_cases hstep : a + PAGE_SIZE_4K ≤ p
    · rw [pagesBetween_cons ha (le_trans h1 h2), pagesBetween_cons ha h1]
      have ha2 : (a + PAGE_SIZE_4K) % PAGE_SIZE_4K = 0 := by
        simp only [PAGE_SIZE_4K] at *
        omega
      rw [List.cons_append, ih (by simp only [PAGE_SIZE_4K] at *; omega) ha2 hstep]
    · have had : alignDown4k p = a := by
        simp only [alignDown4k, PAGE_SIZE_4K] at *
        omega
      rw [had, pagesBetween_cons ha (le_trans h1 h2)]
      have hsing : pagesBetween a p = [a] := by
        simp only [pagesBetween, if_pos h1]
        have hc : (p - a) / PAGE_SIZE_4K + 1 = 1 := by
          simp only [PAGE_SIZE_4K] at *
          omega
        rw [hc]
        simp [pageList, List.range_succ]
      rw [hsing]
      rfl

theorem checksOf_append (l1 l2 : List Event) :
    checksOf (l1 ++ l2) = checksOf l1 ++ checksOf l2 :=
  List.filterMap_append ..

theorem checksOf_checkList (l : List Nat) (fl : MappingFlags) :
    checksOf (l.map fun q => Event.checkAccess q PAGE_SIZE_4K fl)
      = l.map fun q => (q, PAGE_SIZE_4K, fl) := by
  induction l with
  | nil => rfl
  | cons x xs ih => simp only [List.map_cons, checksOf, List.filterMap_cons] at *; rw [ih]

theorem checksOf_cons_read (a : Nat) (l : List Event) :
    checksOf (Event.readElem a :: l) = checksOf l := rfl

/-- Success characterization of the inner page loop: when the validator
accepts every 4K page of `[page, ptr]`, the loop returns `ok`, leaves the
page cursor on the first page past `ptr` (unmoved if already past), and
emits one `check_region_access` call per page of `[page, ptr]`, ascending. -/
theorem vpAux_success (usa : UserSpaceAccess) (fl : MappingFlags) (ptr : Nat)
    (bound page : Nat) (hb : ptr + 1 ≤ bound + page) (ha : page % PAGE_SIZE_4K = 0)
    (hok : ∀ q, q % PAGE_SIZE_4K = 0 → page ≤ q → q ≤ ptr →
      usa.check_region_access q PAGE_SIZE_4K fl = .ok ()) :
    uspace.validatePagesAux usa fl ptr bound page
      = (.ok (), (if page ≤ ptr then alignDown4k ptr + PAGE_SIZE_4K else page),
         (pagesBetween page ptr).map fun q => Event.checkAccess q PAGE_SIZE_4K fl) := by
  induction bound generalizing page with
  | zero =>
    have hgt : ¬ page ≤ ptr := by omega
    rw [if_neg hgt]
    simp only [uspace.validatePagesAux, pagesBetween, if_neg hgt, List.map_nil]
  | succ b ih =>
    by_cases hpt : page ≤ ptr
    · have hok0 := hok page ha (le_refl page) hpt
      have ihr := ih (page + PAGE_SIZE_4K)
        (by simp only [PAGE_SIZE_4K] at *; omega)
        (by simp only [PAGE_SIZE_4K] at *; omega)
        (fun q hq h1 h2 => hok q hq (by omega) h2)
      simp only [uspace.validatePagesAux, if_pos hpt, hok0, ihr]
      rw [pagesBetween_cons ha hpt, List.map_cons]
      by_cases hpt2 : page + PAGE_SIZE_4K ≤ ptr
      · rw [if_pos hpt2]
      · rw [if_neg hpt2]
        have he : alignDown4k ptr + PAGE_SIZE_4K = page + PAGE_SIZE_4K := by
          simp only [alignDown4k, PAGE_SIZE_4K] at *
          omega
        rw [he]
    · rw [if_neg hpt]
      simp only [uspace.validatePagesAux, if_neg hpt, pagesBetween, List.map_nil]

/-- `vpAux_success` for the bounded wrapper: its computed bound is always
sufficient. -/
theorem vp_success (usa : UserSpaceAccess) (fl : MappingFlags) (ptr page : Nat)
    (ha : page % PAGE_SIZE_4K = 0)
    (hok : ∀ q, q % PAGE_SIZE_4K = 0 → page ≤ q → q ≤ ptr →
      usa.check_region_access q PAGE_SIZE_4K fl = .ok ()) :
    uspace.validatePages usa fl ptr page
      = (.ok (), (if page ≤ ptr then alignDown4k ptr + PAGE_SIZE_4K else page),
         (pagesBetween page ptr).map fun q => Event.checkAccess q PAGE_SIZE_4K fl) := by
  unfold uspace.validatePages
  exact vpAux_success usa fl ptr _ page (by omega) ha hok

/-- Master success lemma for the scan loop: with the first terminator at
element index `k` and the validator accepting every page of the scanned
range, the loop started at element `len ≤ k` returns `ok k`, and its
validator calls are exactly one one-page `check_region_access` per page of
`[page, start + k * size]`, in ascending order, with the requested
permission. -/
theorem scanLoop_success {T : Type} [DecidableEq T] [Inhabited T]
    (usa : UserSpaceAccess) (fl : MappingFlags) (size : Nat) (mem : Nat → T)
    (start k : Nat)
    (hterm : mem (start + k * size) = default)
    (hbefore : ∀ i, i < k → mem (start + i * size) ≠ default)
    (hcheck : ∀ q, q % PAGE_SIZE_4K = 0 → alignDown4k start ≤ q →
      q ≤ start + k * size → usa.check_region_access q PAGE_SIZE_4K fl = .ok ())
    (fuel len page : Nat) (hlen : len ≤ k) (hfuel : k - len < fuel)
    (ha : page % PAGE_SIZE_4K = 0) (hbase : alignDown4k start ≤ page)
    (hub : page ≤ alignDown4k (start + len * size) + PAGE_SIZE_4K) :
    (uspace.scanLoop usa fl size mem start len page fuel).1 = some (.ok k) ∧
    checksOf (uspace.scanLoop usa fl size mem start len page fuel).2
      = (pagesBetween page (start + k * size)).map fun q => (q, PAGE_SIZE_4K, fl) := by
  induction fuel generalizing len page with
  | zero => omega
  | succ f ih =>
    have hms : len * size ≤ k * size := Nat.mul_le_mul_right size hlen
    have hok : ∀ q, q % PAGE_SIZE_4K = 0 → page ≤ q → q ≤ start + len * size →
        usa.check_region_access q PAGE_SIZE_4K fl = .ok () :=
      fun q hq h1 h2 => hcheck q hq (le_trans hbase h1) (by omega)
    have hvp := vp_success usa fl (start + len * size) page ha hok
    by_cases hlast : len = k
    · subst hlast
      simp only [uspace.scanLoop, hvp, hterm, if_pos, checksOf_append]
      refine ⟨trivial, ?_⟩
      rw [checksOf_checkList]
      have : checksOf [Event.readElem (start + len * size)] = [] := rfl
      rw [this, List.append_nil]
    · have hlt : len < k := by omega
      have hne : mem (start + len * size) ≠ default := hbefore len hlt
      rcases hscan : uspace.scanLoop usa fl size mem start (len + 1)
          (if page ≤ start + len * size
           then alignDown4k (start + len * size) + PAGE_SIZE_4K else page) f
        with ⟨res, tr2⟩
      have hsucc : start + (len + 1) * size = start + len * size + size := by
        rw [Nat.succ_mul]
        omega
      have ihr := ih (len + 1)
        (if page ≤ start + len * size
         then alignDown4k (start + len * size) + PAGE_SIZE_4K else page)
        (by omega) (by omega)
        (by
          by_cases hc : page ≤ start + len * size
          · rw [if_pos hc]
            have := alignDown4k_mod (start + len * size)
            simp only [PAGE_SIZE_4K] at *
            omega
          · rw [if_neg hc]; exact ha)
        (by
          by_cases hc : page ≤ start + len * size
          · rw [if_pos hc]
            have h1 := alignDown4k_mono (Nat.le_add_right start (len * size))
            have h2 := alignDown4k_mono (Nat.le_refl (start + len * size))
            have h3 : alignDown4k start ≤ alignDown4k (start + len * size) :=
              alignDown4k_mono (by omega)
            omega
          · rw [if_neg hc]; exact hbase)
        (by
          by_cases hc : page ≤ start + len * size
          · rw [if_pos hc]
            have h1 : alignDown4k (start + len * size)
                ≤ alignDown4k (start + (len + 1) * size) := by
              apply alignDown4k_mono
              omega
            omega
          · rw [if_neg hc]
            have h1 : alignDown4k (start + len * size)
                ≤ alignDown4k (start + (len + 1) * size) := by
              apply alignDown4k_mono
              omega
            omega)
      rw [hscan] at ihr
      simp only [uspace.scanLoop, hvp, if_neg hne, hscan, checksOf_append,
        checksOf_cons_read]
      refine ⟨ihr.1, ?_⟩
      rw [checksOf_checkList, ihr.2]
      by_cases hc : page ≤ start + len * size
      · rw [if_pos hc] at *
        rw [← List.map_append]
        congr 1
        exact (pagesBetween_split (n := start + len * size - page) (le_refl _) ha hc
          (by omega)).symm
      · rw [if_neg hc] at *
        have hempty : pagesBetween page (start + len * size) = [] := by
          simp only [pagesBetween, if_neg hc]
        rw [hempty]
        simp

theorem checksOf_setFlag_cons (b : Bool) (l : List Event) :
    checksOf (Event.setFlag b :: l) = checksOf l := rfl

/-- C1: for every element type, validator, permission set, and start address
passing the element's alignment test, if user memory holds its first
terminator (the type's default value) at element index `k` (hypotheses
`hterm`, `hbefore`) and the validator accepts every 4K page of the
inspected range (`hcheck`), then `check_null_terminated` returns `Ok(k)`:
the count of elements before the first terminator, excluding the terminator
itself (for every fuel larger than `k`). -/
theorem c1_null_terminated_count {T : Type} [DecidableEq T] [Inhabited T]
    (usa : UserSpaceAccess) (fl : MappingFlags) (size align : Nat) (mem : Nat → T)
    (start k fuel : Nat)
    (halign : Nat.land start (align - 1) = 0)
    (hterm : mem (start + k * size) = default)
    (hbefore : ∀ i, i < k → mem (start + i * size) ≠ default)
    (hcheck : ∀ q, q % PAGE_SIZE_4K = 0 → alignDown4k start ≤ q →
      q ≤ start + k * size → usa.check_region_access q PAGE_SIZE_4K fl = .ok ())
    (hfuel : k < fuel) :
    (uspace.check_null_terminated usa size align mem start fl fuel).1 = some (.ok k) := by
  unfold uspace.check_null_terminated
  rw [if_neg (by simp [halign])]
  exact (scanLoop_success usa fl size mem start k hterm hbefore hcheck fuel 0
    (alignDown4k start) (Nat.zero_le k) (by omega) (alignDown4k_mod start) (le_refl _)
    (by simp only [Nat.zero_mul, Nat.add_zero, alignDown4k, PAGE_SIZE_4K]; omega)).1

/-- Concrete user memory for the scan witnesses: bytes 1 at addresses 4096
and 4097, the terminator 0 from address 4098 on. -/
def memW1 : Nat → Nat := fun a => if a < 4098 then 1 else 0

/-- Witness for C1: scanning from address 4096 with element layout `(1, 1)`
over the all-accepting validator finds the terminator after 2 elements. -/
theorem c1_witness :
    (uspace.check_null_terminated usaOk 1 1 memW1 4096 MappingFlags.READ 3).1
      = some (.ok 2) :=
  c1_null_terminated_count usaOk MappingFlags.READ 1 1 memW1 4096 2 3
    (by decide) (by decide) (by decide) (fun q hq h1 h2 => rfl) (by decide)

theorem mem_spannedPages_of {start size k q : Nat} (i : Nat) (hik : i ≤ k)
    (hq : q ∈ elemPages (start + i * size) size) : q ∈ spannedPages start size k := by
  unfold spannedPages
  rw [List.mem_dedup, List.mem_flatMap]
  exact ⟨i, by rw [List.mem_range]; omega, hq⟩

/-- Every page the scan checks (those of `[alignDown4k start, start + k*size]`)
holds part of some inspected element, so it occurs among the spanned pages. -/
theorem pagesBetween_subset_spanned (start size k : Nat) :
    pagesBetween (alignDown4k start) (start + k * size) ⊆ spannedPages start size k := by
  intro q hq
  rw [mem_pagesBetween (alignDown4k_mod start)] at hq
  obtain ⟨hqm, hq1, hq2⟩ := hq
  by_cases hqs : q ≤ start
  · apply mem_spannedPages_of 0 (Nat.zero_le k)
    unfold elemPages
    rw [mem_pagesBetween (alignDown4k_mod _)]
    simp only [Nat.zero_mul, Nat.add_zero]
    refine ⟨hqm, hq1, ?_⟩
    omega
  · push_neg at hqs
    have hs : 0 < size := by
      rcases Nat.eq_zero_or_pos size with h0 | h1
      · subst h0
        simp only [Nat.mul_zero, Nat.add_zero] at hq2
        omega
      · exact h1
    have hle : (q - start) / size * size ≤ q - start := Nat.div_mul_le_self _ _
    have hlt : q - start < (q - start) / size * size + size := by
      have := Nat.div_add_mod' (q - start) size
      have := Nat.mod_lt (q - start) hs
      omega
    have hik : (q - start) / size ≤ k := by
      have hq2s : q - start ≤ k * size := by omega
      have hd := Nat.div_le_div_right (c := size) hq2s
      rw [Nat.mul_div_cancel _ hs] at hd
      exact hd
    apply mem_spannedPages_of ((q - start) / size) hik
    unfold elemPages
    rw [mem_pagesBetween (alignDown4k_mod _)]
    refine ⟨hqm, ?_, ?_⟩
    · have h1 : start + (q - start) / size * size ≤ q := by omega
      have h2 := alignDown4k_mono h1
      have h3 : alignDown4k q = q := by
        simp only [alignDown4k, PAGE_SIZE_4K] at *
        omega
      omega
    · omega

/-- C5: under the same conditions as C1 (first terminator at element index
`k`, validator accepting the scanned pages), the scan issues at most as many
`check_region_access` calls as there are distinct 4K pages spanned by the
inspected elements (terminator included), every call is for a one-page range
with the requested permission, and no two calls target the same page. -/
theorem c5_each_page_checked_at_most_once {T : Type} [DecidableEq T] [Inhabited T]
    (usa : UserSpaceAccess) (fl : MappingFlags) (size align : Nat) (mem : Nat → T)
    (start k fuel : Nat)
    (halign : Nat.land start (align - 1) = 0)
    (hterm : mem (start + k * size) = default)
    (hbefore : ∀ i, i < k → mem (start + i * size) ≠ default)
    (hcheck : ∀ q, q % PAGE_SIZE_4K = 0 → alignDown4k start ≤ q →
      q ≤ start + k * size → usa.check_region_access q PAGE_SIZE_4K fl = .ok ())
    (hfuel : k < fuel) :
    (checksOf (uspace.check_null_terminated usa size align mem start fl fuel).2).length
        ≤ (spannedPages start size k).length ∧
    ((checksOf (uspace.check_null_terminated usa size align mem start fl fuel).2).map
        fun c => c.1).Nodup ∧
    ∀ c ∈ checksOf (uspace.check_null_terminated usa size align mem start fl fuel).2,
      c.2.1 = PAGE_SIZE_4K ∧ c.2.2 = fl := by
  have hs := scanLoop_success usa fl size mem start k hterm hbefore hcheck fuel 0
    (alignDown4k start) (Nat.zero_le k) (by omega) (alignDown4k_mod start) (le_refl _)
    (by simp only [Nat.zero_mul, Nat.add_zero, alignDown4k, PAGE_SIZE_4K]; omega)
  have hchk : checksOf (uspace.check_null_terminated usa size align mem start fl fuel).2
      = (pagesBetween (alignDown4k start) (start + k * size)).map
          fun q => (q, PAGE_SIZE_4K, fl) := by
    unfold uspace.check_null_terminated
    rw [if_neg (by simp [halign])]
    rcases hrun : uspace.scanLoop usa fl size mem start 0 (alignDown4k start) fuel
      with ⟨res, tr⟩
    rw [hrun] at hs
    obtain ⟨h1, h2⟩ := hs
    simp only at h1 h2
    unfold uspace.access_user_memory
    simp only [h1]
    simp only [checksOf_setFlag_cons, checksOf_append]
    rw [h2]
    have hz : checksOf ([] : List Event) = [] := rfl
    rw [hz, List.append_nil]
  refine ⟨?_, ?_, ?_⟩
  · rw [hchk, List.length_map]
    exact (List.subperm_of_subset (pagesBetween_nodup _ _)
      (pagesBetween_subset_spanned start size k)).length_le
  · rw [hchk, List.map_map]
    have hid : ((fun c => c.1) ∘ fun q : Nat => (q, PAGE_SIZE_4K, fl)) = id := rfl
    rw [hid, List.map_id]
    exact pagesBetween_nodup _ _
  · rw [hchk]
    intro c hc
    rw [List.mem_map] at hc
    obtain ⟨q, _, rfl⟩ := hc
    exact ⟨rfl, rfl⟩

/-- Witness for C5 at the same concrete scan as the C1 witness (3 elements
in one page). -/
theorem c5_witness :
    (checksOf (uspace.check_null_terminated usaOk 1 1 memW1 4096 MappingFlags.READ 3).2).length
        ≤ (spannedPages 4096 1 2).length ∧
    ((checksOf (uspace.check_null_terminated usaOk 1 1 memW1 4096 MappingFlags.READ 3).2).map
        fun c => c.1).Nodup ∧
    ∀ c ∈ checksOf (uspace.check_null_terminated usaOk 1 1 memW1 4096 MappingFlags.READ 3).2,
      c.2.1 = PAGE_SIZE_4K ∧ c.2.2 = MappingFlags.READ :=
  c5_each_page_checked_at_most_once usaOk MappingFlags.READ 1 1 memW1 4096 2 3
    (by decide) (by decide) (by decide) (fun q hq h1 h2 => rfl) (by decide)

/-- Every event the inner page loop emits is a one-page
`check_region_access` call with the loop's flags. -/
theorem vpAux_events (usa : UserSpaceAccess) (fl : MappingFlags) (ptr : Nat)
    (bound : Nat) : ∀ (page : Nat) (e : Event),
    e ∈ (uspace.validatePagesAux usa fl ptr bound page).2.2 →
      ∃ q, e = Event.checkAccess q PAGE_SIZE_4K fl := by
  induction bound with
  | zero =>
    intro page e he
    simp only [uspace.validatePagesAux, List.not_mem_nil] at he
  | succ b ih =>
    intro page e he
    by_cases hpt : page ≤ ptr
    · simp only [uspace.validatePagesAux, if_pos hpt] at he
      cases hc : usa.check_region_access page PAGE_SIZE_4K fl with
      | error err =>
        rw [hc] at he
        simp only [List.mem_singleton] at he
        exact ⟨page, he⟩
      | ok u =>
        rw [hc] at he
        rcases hrec : uspace.validatePagesAux usa fl ptr b (page + PAGE_SIZE_4K)
          with ⟨res, page2, tr⟩
        rw [hrec] at he
        simp only [List.mem_cons] at he
        rcases he with he | he
        · exact ⟨page, he⟩
        · have := ih (page + PAGE_SIZE_4K) e
          rw [hrec] at this
          exact this he
    · simp only [uspace.validatePagesAux, if_neg hpt, List.not_mem_nil] at he

/-- Every event the bounded page-loop wrapper emits is a one-page
`check_region_access` call. -/
theorem vp_events (usa : UserSpaceAccess) (fl : MappingFlags) (ptr page : Nat)
    (e : Event) (he : e ∈ (uspace.validatePages usa fl ptr page).2.2) :
    ∃ q, e = Event.checkAccess q PAGE_SIZE_4K fl :=
  vpAux_events usa fl ptr _ page e he

/-- When the inner page loop returns `ok` (with an adequate bound), the page
cursor has passed `ptr`, stays 4K-aligned and monotone, and every page of
`[page, cursor)` was checked by a successful `check_region_access` call
recorded in the trace. -/
theorem vpAux_ok (usa : UserSpaceAccess) (fl : MappingFlags) (ptr : Nat)
    (bound : Nat) : ∀ (page : Nat) (u : Unit),
    page % PAGE_SIZE_4K = 0 → ptr + 1 ≤ bound + page →
    (uspace.validatePagesAux usa fl ptr bound page).1 = .ok u →
    ptr < (uspace.validatePagesAux usa fl ptr bound page).2.1 ∧
    page ≤ (uspace.validatePagesAux usa fl ptr bound page).2.1 ∧
    (uspace.validatePagesAux usa fl ptr bound page).2.1 % PAGE_SIZE_4K = 0 ∧
    ∀ q, q % PAGE_SIZE_4K = 0 → page ≤ q →
      q < (uspace.validatePagesAux usa fl ptr bound page).2.1 →
      Event.checkAccess q PAGE_SIZE_4K fl ∈ (uspace.validatePagesAux usa fl ptr bound page).2.2 ∧
      usa.check_region_access q PAGE_SIZE_4K fl = .ok () := by
  induction bound with
  | zero =>
    intro page u ha hb _hres
    simp only [uspace.validatePagesAux]
    refine ⟨by omega, le_refl _, ha, ?_⟩
    intro q _ h1 h2
    omega
  | succ b ih =>
    intro page u ha hb hres
    by_cases hpt : page ≤ ptr
    · cases hc : usa.check_region_access page PAGE_SIZE_4K fl with
      | error err =>
        simp only [uspace.validatePagesAux, if_pos hpt, hc] at hres
        simp at hres
      | ok u2 =>
        rcases hrec : uspace.validatePagesAux usa fl ptr b (page + PAGE_SIZE_4K)
          with ⟨res, page2, tr⟩
        have hres2 : res = .ok u := by
          simp only [uspace.validatePagesAux, if_pos hpt, hc, hrec] at hres
          exact hres
        have ihr := ih (page + PAGE_SIZE_4K) u
          (by simp only [PAGE_SIZE_4K] at *; omega)
          (by simp only [PAGE_SIZE_4K] at *; omega)
          (by rw [hrec, hres2])
        rw [hrec] at ihr
        simp only at ihr
        obtain ⟨ih1, ih2, ih3, ih4⟩ := ihr
        simp only [uspace.validatePagesAux, if_pos hpt, hc, hrec]
        refine ⟨ih1, by simp only [PAGE_SIZE_4K] at *; omega, ih3, ?_⟩
        intro q hq h1 h2
        by_cases hq2 : page + PAGE_SIZE_4K ≤ q
        · have := ih4 q hq hq2 h2
          exact ⟨List.mem_cons_of_mem _ this.1, this.2⟩
        · have hqe : q = page := by simp only [PAGE_SIZE_4K] at *; omega
          subst hqe
          exact ⟨List.mem_cons_self _ _, hc⟩
    · simp only [uspace.validatePagesAux, if_neg hpt]
      refine ⟨by omega, le_refl _, ha, ?_⟩
      intro q _ h1 h2
      omega

/-- `vpAux_ok` for the bounded wrapper (its bound is always adequate). -/
theorem vp_ok (usa : UserSpaceAccess) (fl : MappingFlags) (ptr page : Nat) (u : Unit)
    (ha : page % PAGE_SIZE_4K = 0)
    (hres : (uspace.validatePages usa fl ptr page).1 = .ok u) :
    ptr < (uspace.validatePages usa fl ptr page).2.1 ∧
    page ≤ (uspace.validatePages usa fl ptr page).2.1 ∧
    (uspace.validatePages usa fl ptr page).2.1 % PAGE_SIZE_4K = 0 ∧
    ∀ q, q % PAGE_SIZE_4K = 0 → page ≤ q →
      q < (uspace.validatePages usa fl ptr page).2.1 →
      Event.checkAccess q PAGE_SIZE_4K fl ∈ (uspace.validatePages usa fl ptr page).2.2 ∧
      usa.check_region_access q PAGE_SIZE_4K fl = .ok () :=
  vpAux_ok usa fl ptr _ page u ha (by omega) hres

theorem getElem?_some_lt {α : Type} {l : List α} {n : Nat} {a : α}
    (h : l[n]? = some a) : n < l.length := by
  by_contra hn
  push_neg at hn
  rw [List.getElem?_eq_none hn] at h
  simp at h

theorem covered_nil (usa : UserSpaceAccess) (fl : MappingFlags) :
    Covered usa fl [] := by
  intro i a hi
  simp at hi

theorem covered_append_no_read {usa : UserSpaceAccess} {fl : MappingFlags}
    {l l2 : List Event} (hl : Covered usa fl l)
    (h2 : ∀ e ∈ l2, isReadEvent e = false) : Covered usa fl (l ++ l2) := by
  intro i a hi
  by_cases hlt : i < l.length
  · rw [List.getElem?_append_left hlt] at hi
    obtain ⟨j, hj1, hj2, hj3⟩ := hl i a hi
    exact ⟨j, hj1, by rw [List.getElem?_append_left (getElem?_some_lt hj2)]; exact hj2, hj3⟩
  · push_neg at hlt
    rw [List.getElem?_append_right hlt] at hi
    have := h2 _ (List.getElem?_mem hi)
    simp [isReadEvent] at this

theorem covered_snoc_read {usa : UserSpaceAccess} {fl : MappingFlags}
    {l : List Event} {a : Nat} (hl : Covered usa fl l)
    (hmem : Event.checkAccess (alignDown4k a) PAGE_SIZE_4K fl ∈ l)
    (hok : usa.check_region_access (alignDown4k a) PAGE_SIZE_4K fl = .ok ()) :
    Covered usa fl (l ++ [Event.readElem a]) := by
  intro i x hi
  by_cases hlt : i < l.length
  · rw [List.getElem?_append_left hlt] at hi
    obtain ⟨j, hj1, hj2, hj3⟩ := hl i x hi
    exact ⟨j, hj1, by rw [List.getElem?_append_left (getElem?_some_lt hj2)]; exact hj2, hj3⟩
  · push_neg at hlt
    rw [List.getElem?_append_right hlt] at hi
    have hi0 : i - l.length = 0 := by
      have hb := getElem?_some_lt hi
      simp only [List.length_singleton] at hb
      omega
    rw [hi0] at hi
    simp only [List.getElem?_cons_zero, Option.some.injEq] at hi
    obtain rfl : a = x := by
      cases hi
      rfl
    obtain ⟨j, hj⟩ := List.getElem?_of_mem hmem
    have hjl : j < l.length := getElem?_some_lt hj
    exact ⟨j, by omega, by rw [List.getElem?_append_left hjl]; exact hj, hok⟩

theorem covered_cons_nonread {usa : UserSpaceAccess} {fl : MappingFlags}
    {l : List Event} (e : Event) (he : isReadEvent e = false)
    (hl : Covered usa fl l) : Covered usa fl (e :: l) := by
  intro i x hi
  cases i with
  | zero =>
    simp only [List.getElem?_cons_zero, Option.some.injEq] at hi
    subst hi
    simp [isReadEvent] at he
  | succ j =>
    rw [List.getElem?_cons_succ] at hi
    obtain ⟨m, hm1, hm2, hm3⟩ := hl j x hi
    exact ⟨m + 1, by omega, by rw [List.getElem?_cons_succ]; exact hm2, hm3⟩

/-- Coverage invariant of the scan loop: starting from a 4K-aligned page
cursor at or above the start page, with every earlier page already checked
successfully in the history `pre`, the whole continuation's trace keeps
every element read covered by an earlier successful one-page
`check_region_access`. -/
theorem scanLoop_covered {T : Type} [DecidableEq T] [Inhabited T]
    (usa : UserSpaceAccess) (fl : MappingFlags) (size : Nat) (mem : Nat → T)
    (start : Nat) :
    ∀ (fuel len page : Nat) (pre : List Event),
      page % PAGE_SIZE_4K = 0 → alignDown4k start ≤ page →
      (∀ q, q % PAGE_SIZE_4K = 0 → alignDown4k start ≤ q → q < page →
        Event.checkAccess q PAGE_SIZE_4K fl ∈ pre ∧
        usa.check_region_access q PAGE_SIZE_4K fl = .ok ()) →
      Covered usa fl pre →
      Covered usa fl (pre ++ (uspace.scanLoop usa fl size mem start len page fuel).2) := by
  intro fuel
  induction fuel with
  | zero =>
    intro len page pre _ _ _ hcov
    simp only [uspace.scanLoop, List.append_nil]
    exact hcov
  | succ f ih =>
    intro len page pre ha hbase hpre hcov
    rcases hvp : uspace.validatePages usa fl (start + len * size) page with ⟨rvp, page2, trvp⟩
    have hnoread : ∀ e ∈ trvp, isReadEvent e = false := by
      intro e he
      obtain ⟨q, rfl⟩ := vp_events usa fl (start + len * size) page e (by rw [hvp]; exact he)
      rfl
    cases rvp with
    | error err =>
      simp only [uspace.scanLoop, hvp]
      exact covered_append_no_read hcov hnoread
    | ok u =>
      have hfacts := vp_ok usa fl (start + len * size) page u ha (by rw [hvp])
      rw [hvp] at hfacts
      simp only at hfacts
      obtain ⟨hf1, hf2, hf3, hf4⟩ := hfacts
      have hptr_cov : Event.checkAccess (alignDown4k (start + len * size)) PAGE_SIZE_4K fl
          ∈ pre ++ trvp ∧
          usa.check_region_access (alignDown4k (start + len * size)) PAGE_SIZE_4K fl
            = .ok () := by
        have hm : alignDown4k (start + len * size) % PAGE_SIZE_4K = 0 := alignDown4k_mod _
        have hbl : alignDown4k start ≤ alignDown4k (start + len * size) :=
          alignDown4k_mono (Nat.le_add_right _ _)
        have hlt2 : alignDown4k (start + len * size) < page2 := by
          have := alignDown4k_le (start + len * size)
          omega
        by_cases hc : alignDown4k (start + len * size) < page
        · have := hpre _ hm hbl hc
          exact ⟨List.mem_append_left _ this.1, this.2⟩
        · push_neg at hc
          have := hf4 _ hm hc hlt2
          exact ⟨List.mem_append_right _ this.1, this.2⟩
      have hcov2 : Covered usa fl (pre ++ trvp) := covered_append_no_read hcov hnoread
      by_cases hterm : mem (start + len * size) = default
      · simp only [uspace.scanLoop, hvp, if_pos hterm]
        rw [← List.append_assoc]
        exact covered_snoc_read hcov2 hptr_cov.1 hptr_cov.2
      · rcases hrec : uspace.scanLoop usa fl size mem start (len + 1) page2 f with ⟨res, tr2⟩
        simp only [uspace.scanLoop, hvp, if_neg hterm, hrec]
        have hshape : pre ++ (trvp ++ Event.readElem (start + len * size) :: tr2)
            = ((pre ++ trvp) ++ [Event.readElem (start + len * size)]) ++ tr2 := by
          simp [List.append_assoc]
        rw [hshape]
        have hpre2 : ∀ q, q % PAGE_SIZE_4K = 0 → alignDown4k start ≤ q → q < page2 →
            Event.checkAccess q PAGE_SIZE_4K fl
              ∈ (pre ++ trvp) ++ [Event.readElem (start + len * size)] ∧
            usa.check_region_access q PAGE_SIZE_4K fl = .ok () := by
          intro q hq hbq hq2
          by_cases hc : q < page
          · have := hpre q hq hbq hc
            exact ⟨List.mem_append_left _ (List.mem_append_left _ this.1), this.2⟩
          · push_neg at hc
            have := hf4 q hq hc hq2
            exact ⟨List.mem_append_left _ (List.mem_append_right _ this.1), this.2⟩
        have hcov3 : Covered usa fl ((pre ++ trvp) ++ [Event.readElem (start + len * size)]) :=
          covered_snoc_read hcov2 hptr_cov.1 hptr_cov.2
        have hih := ih (len + 1) page2 _ hf3 (by omega) hpre2 hcov3
        rw [hrec] at hih
        exact hih

/-- C2 (amended): during every run of `check_null_terminated` on a start
address passing the alignment test, every element read lies in a 4K page
for which a `check_region_access` call for exactly that one page, with the
requested permission, succeeded earlier in the run; no element is read from
a page not validated that way.  (The scan performs no `populate_region`
call at all — see the counterexample — so the claim's "check and populate"
region check does not happen; only the access check does.) -/
theorem c2_reads_only_validated_pages {T : Type} [DecidableEq T] [Inhabited T]
    (usa : UserSpaceAccess) (fl : MappingFlags) (size align : Nat) (mem : Nat → T)
    (start fuel : Nat)
    (halign : Nat.land start (align - 1) = 0) :
    Covered usa fl (uspace.check_null_terminated usa size align mem start fl fuel).2 := by
  unfold uspace.check_null_terminated
  rw [if_neg (by simp [halign])]
  have hscan := scanLoop_covered usa fl size mem start fuel 0 (alignDown4k start) []
    (alignDown4k_mod start) (le_refl _)
    (by intro q _ h1 h2; omega)
    (covered_nil usa fl)
  rw [List.nil_append] at hscan
  rcases hrun : uspace.scanLoop usa fl size mem start 0 (alignDown4k start) fuel
    with ⟨res, tr⟩
  rw [hrun] at hscan
  simp only at hscan
  unfold uspace.access_user_memory
  simp only
  apply covered_cons_nonread (Event.setFlag true) rfl
  apply covered_append_no_read hscan
  intro e he
  cases res with
  | some v =>
    simp only [List.mem_singleton] at he
    subst he
    rfl
  | none => simp at he

/-- C2 counterexample: a concrete successful scan (terminator after two
elements, all-accepting validator) contains an element read but not a
single `populate_region` event, so the claim's requirement that a
`populate_region` call precede each read is false on the code. -/
theorem c2_counterexample :
    Event.readElem 4096
      ∈ (uspace.check_null_terminated usaOk 1 1 memW1 4096 MappingFlags.READ 3).2 ∧
    ∀ e ∈ (uspace.check_null_terminated usaOk 1 1 memW1 4096 MappingFlags.READ 3).2,
      isPopulateEvent e = false := by
  decide

/-- Witness for C2's amended theorem at the concrete scan of the C1
witness. -/
theorem c2_witness :
    Covered usaOk MappingFlags.READ
      (uspace.check_null_terminated usaOk 1 1 memW1 4096 MappingFlags.READ 3).2 :=
  c2_reads_only_validated_pages usaOk MappingFlags.READ 1 1 memW1 4096 3 (by decide)

theorem foldl_flagStep_const {l : List Event}
    (h : ∀ e ∈ l, isAccessEvent e = true) :
    ∀ b : Bool, l.foldl flagStep b = b := by
  induction l with
  | nil => intro b; rfl
  | cons e es ih =>
    intro b
    have he := h e (List.mem_cons_self e es)
    have hstep : flagStep b e = b := by
      cases e with
      | setFlag v => simp [isAccessEvent] at he
      | checkAccess s z f => rfl
      | populate s z f => rfl
      | readElem a => rfl
    rw [List.foldl_cons, hstep]
    exact ih (fun x hx => h x (List.mem_cons_of_mem _ hx)) b

/-- Every event of the scan loop's own trace is an access-window event
(an element read or a validator call) — the loop itself never touches the
per-context flag. -/
theorem scan_events_access {T : Type} [DecidableEq T] [Inhabited T]
    (usa : UserSpaceAccess) (fl : MappingFlags) (size : Nat) (mem : Nat → T)
    (start : Nat) :
    ∀ (fuel len page : Nat) (e : Event),
      e ∈ (uspace.scanLoop usa fl size mem start len page fuel).2 →
      isAccessEvent e = true := by
  intro fuel
  induction fuel with
  | zero =>
    intro len page e he
    simp only [uspace.scanLoop, List.not_mem_nil] at he
  | succ f ih =>
    intro len page e he
    rcases hvp : uspace.validatePages usa fl (start + len * size) page
      with ⟨rvp, page2, trvp⟩
    have hacc : ∀ x ∈ trvp, isAccessEvent x = true := by
      intro x hx
      obtain ⟨q, rfl⟩ :=
        vp_events usa fl (start + len * size) page x (by rw [hvp]; exact hx)
      rfl
    cases rvp with
    | error err =>
      simp only [uspace.scanLoop, hvp] at he
      exact hacc e he
    | ok u =>
      by_cases hterm : mem (start + len * size) = default
      · simp only [uspace.scanLoop, hvp, if_pos hterm] at he
        rw [List.mem_append] at he
        rcases he with he | he
        · exact hacc e he
        · simp only [List.mem_singleton] at he
          subst he
          rfl
      · rcases hrec : uspace.scanLoop usa fl size mem start (len + 1) page2 f
          with ⟨res, tr2⟩
        simp only [uspace.scanLoop, hvp, if_neg hterm, hrec] at he
        rw [List.mem_append, List.mem_cons] at he
        rcases he with he | he | he
        · exact hacc e he
        · subst he
          rfl
        · have := ih (len + 1) page2 e
          rw [hrec] at this
          exact this he

/-- The trace shape of `access_user_memory` around a body that finished:
the flag is raised, the body's events follow, the flag is lowered. -/
theorem access_user_memory_trace_some {A : Type} (r1 : Option (Except LinuxError A))
    (tr : List Event) (v : Except LinuxError A) (h : r1 = some v) :
    uspace.access_user_memory (r1, tr)
      = (some v, Event.setFlag true :: tr ++ [Event.setFlag false]) := by
  subst h
  rfl

/-- C3: for every run of `check_null_terminated` on a start address passing
the alignment test that returns (successfully or with an error), the
per-context access flag is false immediately before the call (empty-prefix
fold), false again after the whole trace, and true at the moment of every
element read and every validator call of the run. -/
theorem c3_access_flag_lifecycle {T : Type} [DecidableEq T] [Inhabited T]
    (usa : UserSpaceAccess) (fl : MappingFlags) (size align : Nat) (mem : Nat → T)
    (start fuel : Nat) (res : Except LinuxError Nat)
    (halign : Nat.land start (align - 1) = 0)
    (hres : (uspace.check_null_terminated usa size align mem start fl fuel).1 = some res) :
    flagAfter (List.take 0 (uspace.check_null_terminated usa size align mem start fl fuel).2)
      = false ∧
    flagAfter (uspace.check_null_terminated usa size align mem start fl fuel).2 = false ∧
    ∀ (i : Nat) (e : Event),
      (uspace.check_null_terminated usa size align mem start fl fuel).2[i]? = some e →
      isAccessEvent e = true →
      flagAfter
        (List.take i (uspace.check_null_terminated usa size align mem start fl fuel).2)
        = true := by
  have halign2 : ¬ (Nat.land start (align - 1) ≠ 0) := by simp [halign]
  unfold uspace.check_null_terminated at hres ⊢
  rw [if_neg halign2] at hres ⊢
  rcases hrun : uspace.scanLoop usa fl size mem start 0 (alignDown4k start) fuel
    with ⟨r, tr⟩
  rw [hrun] at hres
  have hr : r = some res := hres
  subst hr
  rw [access_user_memory_trace_some (some res) tr res rfl, List.cons_append]
  have haccess : ∀ e ∈ tr, isAccessEvent e = true := by
    intro e he
    have := scan_events_access usa fl size mem start fuel 0 (alignDown4k start) e
    rw [hrun] at this
    exact this he
  refine ⟨rfl, ?_, ?_⟩
  · unfold flagAfter
    rw [List.foldl_cons, List.foldl_append, foldl_flagStep_const haccess]
    rfl
  · intro i e hi hacc
    cases i with
    | zero =>
      simp only [List.getElem?_cons_zero, Option.some.injEq] at hi
      subst hi
      simp [isAccessEvent] at hacc
    | succ j =>
      rw [List.getElem?_cons_succ] at hi
      rw [List.take_succ_cons]
      unfold flagAfter
      rw [List.foldl_cons]
      by_cases hj : j < tr.length
      · have htake : List.take j (tr ++ [Event.setFlag false]) = List.take j tr := by
          rw [List.take_append_eq_append_take]
          have hz : j - tr.length = 0 := by omega
          rw [hz]
          simp
        rw [htake]
        exact foldl_flagStep_const (fun x hx => haccess x (List.take_subset j tr hx)) true
      · push_neg at hj
        have hb := getElem?_some_lt hi
        simp only [List.length_append, List.length_singleton] at hb
        have hje : j = tr.length := by omega
        subst hje
        rw [List.getElem?_append_right (le_refl _)] at hi
        simp only [Nat.sub_self, List.getElem?_cons_zero, Option.some.injEq] at hi
        subst hi
        simp [isAccessEvent] at hacc

/-- Witness for C3 at the concrete scan of the C1 witness. -/
theorem c3_witness :
    flagAfter (List.take 0
      (uspace.check_null_terminated usaOk 1 1 memW1 4096 MappingFlags.READ 3).2) = false ∧
    flagAfter (uspace.check_null_terminated usaOk 1 1 memW1 4096 MappingFlags.READ 3).2
      = false ∧
    ∀ (i : Nat) (e : Event),
      (uspace.check_null_terminated usaOk 1 1 memW1 4096 MappingFlags.READ 3).2[i]? = some e →
      isAccessEvent e = true →
      flagAfter (List.take i
        (uspace.check_null_terminated usaOk 1 1 memW1 4096 MappingFlags.READ 3).2) = true :=
  c3_access_flag_lifecycle usaOk MappingFlags.READ 1 1 memW1 4096 3 (.ok 2)
    (by decide) (by rfl)

deriving instance DecidableEq for Except

/-- Success run of the `read_str_array` loop from slot `off`: if every slot
from `off` up to `n - 1` reads a non-null pointer whose string reads back,
and slot `n` reads null, the loop returns the strings of slots
`off .. n - 1` in order. -/
theorem rsa_ok_from (usa : UserSpaceAccess) (memPtr memByte : Nat → Nat)
    (addr strFuel : Nat) (vals : Nat → Nat) (strs : Nat → List Nat) (n : Nat)
    (hslot : ∀ i, i < n →
      (uspace.UserSpace.read usa 8 8 memPtr (ptrmod.offset 8 addr i)).1 = .ok (vals i))
    (hnz : ∀ i, i < n → vals i ≠ 0)
    (hstr : ∀ i, i < n →
      (uspace.UserSpace.read_str usa memByte (vals i) strFuel).1 = some (.ok (strs i)))
    (hnull : (uspace.UserSpace.read usa 8 8 memPtr (ptrmod.offset 8 addr n)).1 = .ok 0) :
    ∀ (fuel off : Nat), off ≤ n → n < off + fuel →
      (uspace.UserSpace.read_str_array usa memPtr memByte addr strFuel off fuel).1
        = some (.ok ((List.range (n - off)).map fun t => strs (off + t))) := by
  intro fuel
  induction fuel with
  | zero =>
    intro off h1 h2
    omega
  | succ f ih =>
    intro off h1 h2
    rcases hrd : uspace.UserSpace.read usa 8 8 memPtr (ptrmod.offset 8 addr off)
      with ⟨rv, tr⟩
    by_cases hoff : off = n
    · subst hoff
      have hv : rv = .ok 0 := by
        rw [hrd] at hnull
        exact hnull
      subst hv
      simp only [uspace.UserSpace.read_str_array, hrd]
      simp
    · have hlt : off < n := by omega
      have hv : rv = .ok (vals off) := by
        have := hslot off hlt
        rw [hrd] at this
        exact this
      subst hv
      rcases hrs : uspace.UserSpace.read_str usa memByte (vals off) strFuel with ⟨rs, tr2⟩
      have hrs1 : rs = some (.ok (strs off)) := by
        have := hstr off hlt
        rw [hrs] at this
        exact this
      subst hrs1
      rcases hrec : uspace.UserSpace.read_str_array usa memPtr memByte addr strFuel
          (off + 1) f with ⟨rr, tr3⟩
      have ihr := ih (off + 1) (by omega) (by omega)
      rw [hrec] at ihr
      simp only at ihr
      subst ihr
      simp only [uspace.UserSpace.read_str_array, hrd, if_neg (hnz off hlt), hrs, hrec]
      have hlist : (List.range (n - off)).map (fun t => strs (off + t))
          = strs off :: (List.range (n - (off + 1))).map fun t => strs (off + 1 + t) := by
        have hsz : n - off = (n - (off + 1)) + 1 := by omega
        conv_lhs => rw [hsz]
        rw [List.range_succ_eq_map, List.map_cons, List.map_map]
        congr 1
        apply List.map_congr_left
        intro t _
        simp only [Function.comp_apply]
        have hadd : off + Nat.succ t = off + 1 + t := by omega
        rw [hadd]
      rw [hlist]

/-- Error run of the `read_str_array` loop from slot `off`: slots below `j`
read fine, and at slot `j` either the slot read itself fails with `e`, or it
reads a non-null pointer whose string read fails with `e`; the loop
propagates `e`. -/
theorem rsa_err_from (usa : UserSpaceAccess) (memPtr memByte : Nat → Nat)
    (addr strFuel : Nat) (vals : Nat → Nat) (strs : Nat → List Nat) (j : Nat)
    (e : LinuxError)
    (hslot : ∀ i, i < j →
      (uspace.UserSpace.read usa 8 8 memPtr (ptrmod.offset 8 addr i)).1 = .ok (vals i))
    (hnz : ∀ i, i < j → vals i ≠ 0)
    (hstr : ∀ i, i < j →
      (uspace.UserSpace.read_str usa memByte (vals i) strFuel).1 = some (.ok (strs i)))
    (hfail : (uspace.UserSpace.read usa 8 8 memPtr (ptrmod.offset 8 addr j)).1 = .error e ∨
      ((uspace.UserSpace.read usa 8 8 memPtr (ptrmod.offset 8 addr j)).1 = .ok (vals j) ∧
        vals j ≠ 0 ∧
        (uspace.UserSpace.read_str usa memByte (vals j) strFuel).1 = some (.error e))) :
    ∀ (fuel off : Nat), off ≤ j → j < off + fuel →
      (uspace.UserSpace.read_str_array usa memPtr memByte addr strFuel off fuel).1
        = some (.error e) := by
  intro fuel
  induction fuel with
  | zero =>
    intro off h1 h2
    omega
  | succ f ih =>
    intro off h1 h2
    rcases hrd : uspace.UserSpace.read usa 8 8 memPtr (ptrmod.offset 8 addr off)
      with ⟨rv, tr⟩
    by_cases hoff : off = j
    · subst hoff
      rcases hfail with hf | ⟨hf1, hf2, hf3⟩
      · have hv : rv = .error e := by
          rw [hrd] at hf
          exact hf
        subst hv
        simp only [uspace.UserSpace.read_str_array, hrd]
      · have hv : rv = .ok (vals off) := by
          rw [hrd] at hf1
          exact hf1
        subst hv
        rcases hrs : uspace.UserSpace.read_str usa memByte (vals off) strFuel with ⟨rs, tr2⟩
        have hrs1 : rs = some (.error e) := by
          rw [hrs] at hf3
          exact hf3
        subst hrs1
        simp only [uspace.UserSpace.read_str_array, hrd, if_neg hf2, hrs]
    · have hlt : off < j := by omega
      have hv : rv = .ok (vals off) := by
        have := hslot off hlt
        rw [hrd] at this
        exact this
      subst hv
      rcases hrs : uspace.UserSpace.read_str usa memByte (vals off) strFuel with ⟨rs, tr2⟩
      have hrs1 : rs = some (.ok (strs off)) := by
        have := hstr off hlt
        rw [hrs] at this
        exact this
      subst hrs1
      rcases hrec : uspace.UserSpace.read_str_array usa memPtr memByte addr strFuel
          (off + 1) f with ⟨rr, tr3⟩
      have ihr := ih (off + 1) (by omega) (by omega)
      rw [hrec] at ihr
      simp only at ihr
      subst ihr
      simp only [uspace.UserSpace.read_str_array, hrd, if_neg (hnz off hlt), hrs, hrec]

/-- C6: over a pointer array whose slots hold `n` non-null pointers to valid
strings followed by a null slot, `read_str_array` returns exactly those `n`
decoded strings in slot order (first conjunct); and whenever reading a slot
or a pointed-to string fails with `e` after a good prefix, it returns
exactly that error — by the `Except` result type no partial string sequence
is delivered (second conjunct). -/
theorem c6_read_str_array_spec (usa : UserSpaceAccess) (memPtr memByte : Nat → Nat)
    (addr strFuel : Nat) (vals : Nat → Nat) (strs : Nat → List Nat) :
    (∀ (n fuel : Nat),
      (∀ i, i < n →
        (uspace.UserSpace.read usa 8 8 memPtr (ptrmod.offset 8 addr i)).1 = .ok (vals i)) →
      (∀ i, i < n → vals i ≠ 0) →
      (∀ i, i < n →
        (uspace.UserSpace.read_str usa memByte (vals i) strFuel).1 = some (.ok (strs i))) →
      (uspace.UserSpace.read usa 8 8 memPtr (ptrmod.offset 8 addr n)).1 = .ok 0 →
      n < fuel →
      (uspace.UserSpace.read_str_array usa memPtr memByte addr strFuel 0 fuel).1
        = some (.ok ((List.range n).map strs))) ∧
    (∀ (j : Nat) (e : LinuxError) (fuel : Nat),
      (∀ i, i < j →
        (uspace.UserSpace.read usa 8 8 memPtr (ptrmod.offset 8 addr i)).1 = .ok (vals i)) →
      (∀ i, i < j → vals i ≠ 0) →
      (∀ i, i < j →
        (uspace.UserSpace.read_str usa memByte (vals i) strFuel).1 = some (.ok (strs i))) →
      ((uspace.UserSpace.read usa 8 8 memPtr (ptrmod.offset 8 addr j)).1 = .error e ∨
        ((uspace.UserSpace.read usa 8 8 memPtr (ptrmod.offset 8 addr j)).1 = .ok (vals j) ∧
          vals j ≠ 0 ∧
          (uspace.UserSpace.read_str usa memByte (vals j) strFuel).1 = some (.error e))) →
      j < fuel →
      (uspace.UserSpace.read_str_array usa memPtr memByte addr strFuel 0 fuel).1
        = some (.error e)) := by
  constructor
  · intro n fuel hslot hnz hstr hnull hfuel
    have := rsa_ok_from usa memPtr memByte addr strFuel vals strs n hslot hnz hstr hnull
      fuel 0 (Nat.zero_le n) (by omega)
    rw [this]
    congr 1
    congr 1
    rw [Nat.sub_zero]
    apply List.map_congr_left
    intro t _
    rw [Nat.zero_add]
  · intro j e fuel hslot hnz hstr hfail hfuel
    exact rsa_err_from usa memPtr memByte addr strFuel vals strs j e hslot hnz hstr hfail
      fuel 0 (Nat.zero_le j) (by omega)

/-- Slot memory for the C6 witness: pointers 4096, 4200, 4300 at slots 0, 8,
16, and a null slot at 24. -/
def memPtrW : Nat → Nat :=
  fun a => if a = 0 then 4096 else if a = 8 then 4200 else if a = 16 then 4300 else 0

/-- String memory for the C6 witness: one-byte strings "a", "b", "c" at
4096, 4200 and 4300, each null-terminated. -/
def memByteW : Nat → Nat :=
  fun a => if a = 4096 then 97 else if a = 4200 then 98 else if a = 4300 then 99 else 0

/-- The pointer values the C6 witness slots hold. -/
def valsW : Nat → Nat :=
  fun i => if i = 0 then 4096 else if i = 1 then 4200 else if i = 2 then 4300 else 0

/-- The decoded strings of the C6 witness. -/
def strsW : Nat → List Nat :=
  fun i => if i = 0 then [97] else if i = 1 then [98] else [99]

/-- A validator accepting only addresses below 4096: slot reads succeed, the
first string's page faults. -/
def usaSel : UserSpaceAccess :=
  ⟨fun s _ _ => if s < 4096 then .ok () else .error .EFAULT,
   fun s _ _ => if s < 4096 then .ok () else .error .EFAULT⟩

/-- Witness for C6: a three-string array decodes in order over the
all-accepting validator, and with a validator faulting on the first string's
page the fault error propagates with no strings delivered. -/
theorem c6_witness :
    (uspace.UserSpace.read_str_array usaOk memPtrW memByteW 0 3 0 4).1
      = some (.ok ((List.range 3).map strsW)) ∧
    (uspace.UserSpace.read_str_array usaSel memPtrW memByteW 0 3 0 4).1
      = some (.error .EFAULT) :=
  ⟨(c6_read_str_array_spec usaOk memPtrW memByteW 0 3 valsW strsW).1 3 4
      (by decide) (by decide) (by decide) (by decide) (by decide),
   (c6_read_str_array_spec usaSel memPtrW memByteW 0 3 valsW strsW).2 0 .EFAULT 4
      (by decide) (by decide) (by decide) (Or.inr (by decide)) (by decide)⟩
